import Mathlib

/-!
# Verification of the Lyra ingestion & imputation pipeline

Shallow embedding of the data-ingestion core of the Lyra repository:

* `src/lib/data/useIngestion.ts` — the `finalize` pipeline (normalization,
  policy resolution, replacement computation, row dropping, imputation,
  target-type inference), and
* the parser module — `generatePreview` / `parseCSVText` column-name
  resolution and the column profiler statistics.

Conventions of the embedding:

* JS strings are Lean `String`s; JS cell values (`string | number`) are
  `JsVal` with numbers modelled as exact rationals `ℚ`.
* Records (`Record<string, string>`) are modelled as total functions
  `String → String`; a key that is absent in JS reads as `""` here, which
  is observationally equal for every use the pipeline makes of cells
  (`v === '' || v === null || v === undefined` is the only missing test).
* JS `Number(string)` is modelled on its decimal fragment by `jsNum`
  (optional sign, integer/fraction digits); `Number('') = 0` and
  `Number(whitespace) = 0` are reproduced.  Placeholder tokens never parse,
  both in JS and in this model.
* `undefined`-able values are `Option`s; `x || y` on never-falsy operands
  is `Option.orElse`-style matching.
-/

set_option maxHeartbeats 1000000

namespace Lyra

/-! ## JS primitive models -/

/-- A JS table-cell value: `string | number`.  Numbers are modelled as exact
rationals. -/
inductive JsVal where
  | str (s : String)
  | num (q : ℚ)
  deriving DecidableEq, Repr

/-- The missing-cell test `v === '' || v === null || v === undefined` used
throughout `finalize`. -/
def JsVal.isMissing : JsVal → Bool
  | .str s => s == ""
  | .num _ => false

/-- ASCII whitespace recognised by the model of JS `trim`. -/
def isWspChar (c : Char) : Bool :=
  c == ' ' || c == '\t' || c == '\n' || c == '\r'

/-- Model of JS `String.prototype.trim` (ASCII-whitespace fragment). -/
def jsTrim (s : String) : String :=
  ⟨((s.data.dropWhile isWspChar).reverse.dropWhile isWspChar).reverse⟩

/-- Model of JS `toLowerCase` on a single char (ASCII fragment). -/
def jsCharLower (c : Char) : Char :=
  if 65 ≤ c.toNat ∧ c.toNat ≤ 90 then Char.ofNat (c.toNat + 32) else c

/-- Model of JS `String.prototype.toLowerCase` (ASCII fragment). -/
def jsLower (s : String) : String := ⟨s.data.map jsCharLower⟩

/-- Decimal-digit test by code point (48–57). -/
def isDigitCh (c : Char) : Bool := 48 ≤ c.toNat && c.toNat ≤ 57

/-- Value of a digit string read in base 10. -/
def digitsValN (ds : List Char) : ℕ := ds.foldl (fun a c => 10 * a + (c.toNat - 48)) 0

/-- Unsigned decimal numeral: `digits`, `digits.digits`, `digits.` or
`.digits` (at least one digit in total). -/
def parseUnsigned (cs : List Char) : Option ℚ :=
  let ip := cs.takeWhile isDigitCh
  match cs.dropWhile isDigitCh with
  | [] => if ip.isEmpty then none else some (digitsValN ip : ℚ)
  | '.' :: fr =>
    if fr.all isDigitCh && !(ip.isEmpty && fr.isEmpty) then
      some ((digitsValN ip : ℚ) + (digitsValN fr : ℚ) / (10 : ℚ) ^ fr.length)
    else none
  | _ => none

/-- Optionally signed decimal numeral. -/
def parseSigned : List Char → Option ℚ
  | '-' :: r => (parseUnsigned r).map (fun q => -q)
  | '+' :: r => parseUnsigned r
  | r => parseUnsigned r

/-- Model of `Number(s)` for a string `s` (decimal fragment, exact rational
semantics): leading/trailing whitespace is trimmed, the empty/blank string is
`0`, everything that is not an optionally-signed decimal numeral is `NaN`
(`none`). -/
def jsNum (s : String) : Option ℚ :=
  let t := jsTrim s
  if t.data = [] then some 0 else parseSigned t.data

/-- `Number(v)` on a cell value; a number maps to itself. -/
def jsToNum : JsVal → Option ℚ
  | .num q => some q
  | .str s => jsNum s

/-- The fixed placeholder-token set of `useIngestion.finalize` and
`generatePreview` (lines 203–215 resp. 758–770). -/
def PLACEHOLDERS : List String :=
  ["na", "n/a", "null", "none", "nil", "nan", "?", "-", "missing", "unknown", "."]

/-- `PLACEHOLDERS.has(v.toString().trim().toLowerCase())`. -/
def isPlaceholderTok (v : String) : Bool := PLACEHOLDERS.contains (jsLower (jsTrim v))

/-- One cell of finalize's normalization pass (useIngestion lines 220–228):
a blank or placeholder cell is rewritten to `""`, anything else is kept
verbatim. -/
def normCell (s : String) : String :=
  let trimmedLower := jsLower (jsTrim s)
  if trimmedLower == "" || PLACEHOLDERS.contains trimmedLower then "" else s

/-! ## Column-name resolution (Structural Resolver) -/

/-- `(h ?? '').toString().trim() || 'col'` — header-cell normalization. -/
def normName (h : String) : String :=
  let t := jsTrim h
  if t = "" then "col" else t

/-- Column de-duplication loop of `generatePreview` (parser lines 732–738):
the `seen` map carries, per base name, how many times it has occurred so
far; the JS `Map` is modelled by a function with default `0`. -/
def previewColumnsGo : List String → (String → ℕ) → List String
  | [], _ => []
  | h :: rest, seen =>
    let base := normName h
    let count := seen base
    (if count = 0 then base else base ++ "_" ++ Nat.repr count) ::
      previewColumnsGo rest (fun x => if x = base then count + 1 else seen x)

/-- Column names produced by the preview path. -/
def previewColumns (hdr : List String) : List String :=
  previewColumnsGo hdr (fun _ => 0)

/-- Column de-duplication loop of `parseCSVText` (parser lines 928–934),
which runs on the already-normalized header and re-checks for `""`. -/
def parseColumnsGo : List String → (String → ℕ) → List String
  | [], _ => []
  | col :: rest, seen =>
    let base := if col = "" then "col" else col
    let count := seen base
    (if count = 0 then base else base ++ "_" ++ Nat.repr count) ::
      parseColumnsGo rest (fun x => if x = base then count + 1 else seen x)

/-- Column names produced by the finalize parse path (parser lines 924–934):
trim/`'col'` normalization followed by de-duplication. -/
def parseColumns (hdr : List String) : List String :=
  parseColumnsGo (hdr.map normName) (fun _ => 0)

/-- Structural resolution of `parseCSVText` (parser lines 902–934): the
header is the row at absolute index `skipRows + headerRow`; out-of-range
indices fail. -/
def resolvedColumns (rows : List (List String)) (skipRows headerRow : ℕ) :
    Option (List String) :=
  if rows.length = 0 then none
  else if rows.length ≤ skipRows then none
  else
    let workingRows := rows.drop skipRows
    if workingRows.length ≤ headerRow then none
    else some (parseColumns (workingRows.getD headerRow []))

/-- The name the de-duplication gives the `k`-prior-occurrences instance of
base name `b`. -/
def dedupName (b : String) (k : ℕ) : String :=
  if k = 0 then b else b ++ "_" ++ Nat.repr k

/-! ## Facts about `Nat.repr` (decimal rendering of the duplicate index) -/

/-- Structural form of the decimal digits of `n` (most significant first). -/
def natChars (n : ℕ) : List Char :=
  if h : n < 10 then [Nat.digitChar n]
  else natChars (n / 10) ++ [Nat.digitChar (n % 10)]
decreasing_by
  exact Nat.div_lt_self (by omega) (by omega)

theorem toDigitsCore_eq_natChars :
    ∀ (fuel n : ℕ) (acc : List Char), n < fuel →
      Nat.toDigitsCore 10 fuel n acc = natChars n ++ acc := by
  intro fuel
  induction fuel with
  | zero => intro n acc h; omega
  | succ f ih =>
    intro n acc h
    rw [Nat.toDigitsCore]
    by_cases h10 : n / 10 = 0
    · have hn : n < 10 := by omega
      simp only [h10, if_pos rfl]
      rw [natChars, dif_pos hn]
      have : n % 10 = n := Nat.mod_eq_of_lt hn
      rw [this]
      rfl
    · simp only [h10, if_neg h10]
      have hn : ¬ n < 10 := by
        intro hlt
        exact h10 (Nat.div_eq_of_lt hlt)
      have hf : n / 10 < f := by
        have h1 : n / 10 < n := Nat.div_lt_self (by omega) (by omega)
        omega
      rw [ih (n / 10) (Nat.digitChar (n % 10) :: acc) hf]
      have hrec : natChars n = natChars (n / 10) ++ [Nat.digitChar (n % 10)] := by
        rw [natChars, dif_neg hn]
      rw [hrec]
      simp

theorem repr_data (n : ℕ) : (Nat.repr n).data = natChars n := by
  show (Nat.toDigits 10 n).asString.data = natChars n
  rw [Nat.toDigits, toDigitsCore_eq_natChars (n + 1) n [] (Nat.lt_succ_self n)]
  simp [List.asString]

theorem digitChar_toNat {d : ℕ} (h : d < 10) : (Nat.digitChar d).toNat = 48 + d := by
  interval_cases d <;> rfl

theorem natChars_digits (n : ℕ) : ∀ c ∈ natChars n, isDigitCh c = true := by
  induction n using Nat.strong_induction_on with
  | _ n ih =>
    intro c hc
    by_cases h : n < 10
    · rw [natChars, dif_pos h] at hc
      simp only [List.mem_singleton] at hc
      subst hc
      simp [isDigitCh, digitChar_toNat h]
      omega
    · rw [natChars, dif_neg h] at hc
      rcases List.mem_append.mp hc with h1 | h1
      · exact ih (n / 10) (Nat.div_lt_self (by omega) (by omega)) c h1
      · simp only [List.mem_singleton] at h1
        subst h1
        have : n % 10 < 10 := Nat.mod_lt _ (by omega)
        simp [isDigitCh, digitChar_toNat this]
        omega

theorem underscore_not_digit : isDigitCh '_' = false := by decide

theorem underscore_not_mem_natChars (n : ℕ) : '_' ∉ natChars n := by
  intro h
  have := natChars_digits n '_' h
  rw [underscore_not_digit] at this
  exact Bool.false_ne_true this

theorem digitsValN_append_singleton (l : List Char) (c : Char) :
    digitsValN (l ++ [c]) = 10 * digitsValN l + (c.toNat - 48) := by
  simp [digitsValN, List.foldl_append]

theorem digitsValN_natChars (n : ℕ) : digitsValN (natChars n) = n := by
  induction n using Nat.strong_induction_on with
  | _ n ih =>
    by_cases h : n < 10
    · rw [natChars, dif_pos h]
      simp [digitsValN, digitChar_toNat h]
    · rw [natChars, dif_neg h]
      rw [digitsValN_append_singleton]
      rw [ih (n / 10) (Nat.div_lt_self (by omega) (by omega))]
      have h10 : n % 10 < 10 := Nat.mod_lt _ (by omega)
      rw [digitChar_toNat h10]
      omega

theorem natChars_inj {a b : ℕ} (h : natChars a = natChars b) : a = b := by
  have := congrArg digitsValN h
  rwa [digitsValN_natChars, digitsValN_natChars] at this

theorem repr_inj {a b : ℕ} (h : Nat.repr a = Nat.repr b) : a = b := by
  apply natChars_inj
  rw [← repr_data, ← repr_data, h]

theorem natChars_ne_nil (n : ℕ) : natChars n ≠ [] := by
  by_cases h : n < 10
  · rw [natChars, dif_pos h]; simp
  · rw [natChars, dif_neg h]; simp

/-! ## Splitting strings at the final underscore -/

/-- If two lists agree and both start with an underscore-free block followed
by `'_'`, the blocks and the remainders agree. -/
theorem underscore_split_head :
    ∀ (s t u v : List Char), '_' ∉ s → '_' ∉ t →
      s ++ '_' :: u = t ++ '_' :: v → s = t ∧ u = v := by
  intro s
  induction s with
  | nil =>
    intro t u v _ ht h
    cases t with
    | nil => simpa using h
    | cons c t' =>
      simp only [List.nil_append, List.cons_append, List.cons.injEq] at h
      exact absurd (h.1.symm ▸ List.mem_cons_self c t') ht
  | cons c s' ih =>
    intro t u v hs ht h
    cases t with
    | nil =>
      simp only [List.cons_append, List.nil_append, List.cons.injEq] at h
      exact absurd (h.1 ▸ List.mem_cons_self c s') hs
    | cons d t' =>
      simp only [List.cons_append, List.cons.injEq] at h
      obtain ⟨hcd, hrest⟩ := h
      have hs' : '_' ∉ s' := fun hm => hs (List.mem_cons_of_mem _ hm)
      have ht' : '_' ∉ t' := fun hm => ht (List.mem_cons_of_mem _ hm)
      obtain ⟨h1, h2⟩ := ih t' u v hs' ht' hrest
      exact ⟨by rw [hcd, h1], h2⟩

/-- Splitting at the last underscore: if the suffixes after the final `'_'`
are underscore-free, equality of the concatenations forces equality of the
parts. -/
theorem underscore_split_last
    (b c s t : List Char) (hs : '_' ∉ s) (ht : '_' ∉ t)
    (h : b ++ '_' :: s = c ++ '_' :: t) : b = c ∧ s = t := by
  have hrev : s.reverse ++ '_' :: b.reverse = t.reverse ++ '_' :: c.reverse := by
    have := congrArg List.reverse h
    simpa [List.reverse_append] using this
  have hs' : '_' ∉ s.reverse := by simpa using hs
  have ht' : '_' ∉ t.reverse := by simpa using ht
  obtain ⟨h1, h2⟩ := underscore_split_head s.reverse t.reverse b.reverse c.reverse hs' ht' hrev
  constructor
  · have := congrArg List.reverse h2; simpa using this
  · have := congrArg List.reverse h1; simpa using this

theorem string_data_inj {s t : String} (h : s.data = t.data) : s = t := by
  cases s; cases t; exact congrArg String.mk h

/-- Injectivity of the suffixed-name constructor: `b ++ "_" ++ repr k`
determines `b` and `k`. -/
theorem suffix_name_inj {b c : String} {j k : ℕ}
    (h : b ++ "_" ++ Nat.repr j = c ++ "_" ++ Nat.repr k) : b = c ∧ j = k := by
  have hdata : b.data ++ '_' :: (Nat.repr j).data = c.data ++ '_' :: (Nat.repr k).data := by
    have := congrArg String.data h
    simpa [String.data_append] using this
  have hj : '_' ∉ (Nat.repr j).data := by rw [repr_data]; exact underscore_not_mem_natChars j
  have hk : '_' ∉ (Nat.repr k).data := by rw [repr_data]; exact underscore_not_mem_natChars k
  obtain ⟨h1, h2⟩ := underscore_split_last _ _ _ _ hj hk hdata
  exact ⟨string_data_inj h1, repr_inj (string_data_inj h2)⟩

/-! ## Closed form of the column de-duplication -/

theorem normName_ne_empty (h : String) : normName h ≠ "" := by
  unfold normName
  by_cases ht : jsTrim h = ""
  · simp [ht]
  · simp [ht]

theorem previewColumnsGo_eq_parseColumnsGo :
    ∀ (l : List String) (seen : String → ℕ),
      previewColumnsGo l seen = parseColumnsGo (l.map normName) seen := by
  intro l
  induction l with
  | nil => intro seen; rfl
  | cons h rest ih =>
    intro seen
    simp only [previewColumnsGo, List.map_cons, parseColumnsGo,
      if_neg (normName_ne_empty h)]
    rw [ih]

theorem preview_eq_parse_columns (hdr : List String) :
    previewColumns hdr = parseColumns hdr :=
  previewColumnsGo_eq_parseColumnsGo hdr (fun _ => 0)

theorem parseColumnsGo_closed :
    ∀ (l : List String) (seen : String → ℕ), "" ∉ l →
      parseColumnsGo l seen = (List.range l.length).map (fun i =>
        dedupName (l.getD i "")
          (seen (l.getD i "") + (l.take i).count (l.getD i ""))) := by
  intro l
  induction l with
  | nil => intro seen _; rfl
  | cons h rest ih =>
    intro seen hne
    have hh : h ≠ "" := fun e => hne (e ▸ List.mem_cons_self h rest)
    simp only [parseColumnsGo, if_neg hh]
    rw [ih _ (fun hm => hne (List.mem_cons_of_mem _ hm))]
    rw [List.length_cons, List.range_succ_eq_map, List.map_cons, List.map_map]
    congr 1
    apply List.map_congr_left
    intro i _
    simp only [Function.comp_apply, List.getD_cons_succ, List.take_succ_cons,
      List.count_cons]
    by_cases hbh : rest.getD i "" = h
    · simp only [if_pos hbh, hbh, beq_self_eq_true, if_pos]
      apply congrArg
      omega
    · have hbeq : (h == rest.getD i "") = false := by
        rw [beq_eq_false_iff_ne]
        exact fun e => hbh e.symm
      simp only [if_neg hbh, hbeq, Bool.false_eq_true, if_false]
      apply congrArg
      omega

theorem empty_not_mem_map_normName (hdr : List String) : "" ∉ hdr.map normName := by
  intro hm
  obtain ⟨y, _, hy⟩ := List.mem_map.mp hm
  exact normName_ne_empty y hy

/-- Closed form of the finalize-path column resolution: column `i` is the
normalized header cell, suffixed with `_k` when it has `k ≥ 1` earlier
occurrences among the normalized cells. -/
theorem parseColumns_closed (hdr : List String) :
    parseColumns hdr = (List.range hdr.length).map (fun i =>
      dedupName ((hdr.map normName).getD i "")
        (((hdr.map normName).take i).count ((hdr.map normName).getD i ""))) := by
  unfold parseColumns
  rw [parseColumnsGo_closed _ _ (empty_not_mem_map_normName hdr)]
  simp

/-! ## Distinctness of resolved column names -/

/-- A header (given by its normalized cell names) is *clean* when no cell
already spells a name `b_k` that the de-duplication could generate for
another cell `b` (`1 ≤ k <` number of occurrences of `b`). -/
def cleanHeaderB (names : List String) : Bool :=
  names.all fun c => names.all fun b =>
    (List.range (names.count b)).all fun k => k = 0 || c != b ++ "_" ++ Nat.repr k

theorem cleanHeaderB_spec {names : List String} (h : cleanHeaderB names = true) :
    ∀ c ∈ names, ∀ b ∈ names, ∀ k, 1 ≤ k → k < names.count b →
      c ≠ b ++ "_" ++ Nat.repr k := by
  intro c hc b hb k hk1 hk2
  simp only [cleanHeaderB, List.all_eq_true, List.mem_range] at h
  have := h c hc b hb k hk2
  simp only [Bool.or_eq_true, decide_eq_true_eq, bne_iff_ne, ne_eq] at this
  rcases this with h0 | hne
  · omega
  · exact hne

theorem getD_mem_of_lt {l : List String} {i : ℕ} (h : i < l.length) :
    l.getD i "" ∈ l := by
  rw [List.getD_eq_getElem?_getD, List.getElem?_eq_getElem h]
  exact List.getElem_mem h

/-- Strict growth of the prior-occurrence count along equal cells. -/
theorem count_take_strict {l : List String} {i j : ℕ}
    (hi : i < l.length) (hij : i < j)
    (heq : l.getD i "" = l.getD j "") :
    (l.take i).count (l.getD i "") < (l.take j).count (l.getD j "") := by
  set b := l.getD i "" with hb
  have hster : l.take (i + 1) = l.take i ++ [b] := by
    rw [List.take_succ, List.getElem?_eq_getElem hi]
    simp [hb, List.getD_eq_getElem?_getD, List.getElem?_eq_getElem hi]
  have h1 : (l.take (i + 1)).count b = (l.take i).count b + 1 := by
    rw [hster, List.count_append, List.count_singleton_self]
  have h2 : (l.take (i + 1)).count b ≤ (l.take j).count b := by
    have hsub : List.Sublist (l.take (i + 1)) (l.take j) := by
      have : (l.take j).take (i + 1) = l.take (i + 1) := by
        rw [List.take_take]
        congr 1
        omega
      rw [← this]
      exact List.take_sublist _ _
    exact hsub.count_le b
  rw [← heq]
  omega

/-- The index used for a duplicate is strictly below the base's total
occurrence count. -/
theorem count_take_lt_count {l : List String} {j : ℕ} (hj : j < l.length) :
    (l.take j).count (l.getD j "") < l.count (l.getD j "") := by
  set b := l.getD j "" with hb
  have hster : l.take (j + 1) = l.take j ++ [b] := by
    rw [List.take_succ, List.getElem?_eq_getElem hj]
    simp [hb, List.getD_eq_getElem?_getD, List.getElem?_eq_getElem hj]
  have h1 : (l.take (j + 1)).count b = (l.take j).count b + 1 := by
    rw [hster, List.count_append, List.count_singleton_self]
  have h2 : (l.take (j + 1)).count b ≤ l.count b := (List.take_sublist _ _).count_le b
  omega

theorem dedup_closed_ne {l : List String}
    (hclean : ∀ c ∈ l, ∀ b ∈ l, ∀ k, 1 ≤ k → k < l.count b →
      c ≠ b ++ "_" ++ Nat.repr k)
    {i j : ℕ} (hi : i < l.length) (hj : j < l.length) (hij : i < j) :
    dedupName (l.getD i "") ((l.take i).count (l.getD i "")) ≠
      dedupName (l.getD j "") ((l.take j).count (l.getD j "")) := by
  intro heq
  have hmem_i : l.getD i "" ∈ l := getD_mem_of_lt hi
  have hmem_j : l.getD j "" ∈ l := getD_mem_of_lt hj
  by_cases hki0 : (l.take i).count (l.getD i "") = 0 <;>
    by_cases hkj0 : (l.take j).count (l.getD j "") = 0
  · -- both first occurrences: equal bases, but then the later count is ≥ 1
    rw [dedupName, if_pos hki0, dedupName, if_pos hkj0] at heq
    have := count_take_strict hi hij heq
    omega
  · -- plain name collides with a generated suffixed name: excluded by hclean
    rw [dedupName, if_pos hki0, dedupName, if_neg hkj0] at heq
    exact hclean _ hmem_i _ hmem_j _ (by omega) (count_take_lt_count hj) heq
  · rw [dedupName, if_neg hki0, dedupName, if_pos hkj0] at heq
    exact hclean _ hmem_j _ hmem_i _ (by omega) (count_take_lt_count hi) heq.symm
  · rw [dedupName, if_neg hki0, dedupName, if_neg hkj0] at heq
    obtain ⟨hb, hk⟩ := suffix_name_inj heq
    have := count_take_strict hi hij hb
    omega

/-- Pairwise distinctness of resolved column names for clean headers. -/
theorem parseColumns_nodup (hdr : List String)
    (hclean : cleanHeaderB (hdr.map normName) = true) :
    (parseColumns hdr).Nodup := by
  rw [parseColumns_closed]
  set l := hdr.map normName with hl
  have hlen : hdr.length = l.length := by rw [hl, List.length_map]
  rw [hlen]
  apply List.Nodup.map_on _ (List.nodup_range _)
  intro x hx y hy hfxy
  rw [List.mem_range] at hx hy
  by_contra hne
  rcases Nat.lt_or_ge x y with hlt | hge
  · exact dedup_closed_ne (cleanHeaderB_spec hclean) hx hy hlt hfxy
  · have hlt : y < x := by omega
    exact dedup_closed_ne (cleanHeaderB_spec hclean) hy hx hlt hfxy.symm

/-! ## The finalize pipeline (`useIngestion.finalize`, lines 160–376) -/

/-- `SimpleMissingStrategy` of the parser module. -/
inductive SimpleStrategy where
  | leaveAsIs | dropRow | zero | mean | median | mode
  deriving DecidableEq, Repr

/-- `ColumnMissingStrategy`: a simple strategy or a constant-value record. -/
inductive ColStrategy where
  | simple (s : SimpleStrategy)
  | constant (value : JsVal)
  deriving DecidableEq, Repr

/-- `(typeof s === 'string' ? s : s.type) === 'drop-row'`. -/
def ColStrategy.isDropRow : ColStrategy → Bool
  | .simple .dropRow => true
  | _ => false

/-- `['leave-as-is', 'drop-row'].includes(type)` — strategies that impute
nothing. -/
def ColStrategy.isPassive : ColStrategy → Bool
  | .simple .leaveAsIs => true
  | .simple .dropRow => true
  | _ => false

/-- The slice of `IngestionConfig` that `finalize` consults. -/
structure IngestCfg where
  globalStrategy : Option SimpleStrategy
  columnStrategies : String → Option ColStrategy
  targetColumn : Option String

/-- The slice of the parsed base dataset that `finalize` consumes
(`base.data.data / target / features`); a row is a total map from column
name to cell string, absent keys reading as `""`. -/
structure ParsedTable where
  rows : List (String → String)
  features : List String
  target : Option String

/-- `effective[col] = ov !== undefined ? ov : config.globalStrategy ||
'leave-as-is'` (lines 189–193). -/
def effectiveStrategy (cfg : IngestCfg) (col : String) : ColStrategy :=
  match cfg.columnStrategies col with
  | some ov => ov
  | none => .simple (cfg.globalStrategy.getD .leaveAsIs)

/-- `effectiveTargetStrategy = targetOverride || config.globalStrategy`
(lines 194–201); the override is looked up under `config.targetColumn`. -/
def effectiveTargetStrategy (cfg : IngestCfg) : Option ColStrategy :=
  match cfg.targetColumn.bind cfg.columnStrategies with
  | some ov => some ov
  | none => cfg.globalStrategy.map ColStrategy.simple

/-- Placeholder/whitespace normalization of one row (lines 216–230): every
feature or target cell that is blank or a placeholder token becomes `""`. -/
def normRow (features : List String) (target : Option String) (r : String → String) :
    String → String :=
  fun c =>
    if features.contains c || target == some c then normCell (r c) else r c

/-- The normalized row list (`rows` after lines 216–230). -/
def normRows (t : ParsedTable) : List (String → String) :=
  t.rows.map (normRow t.features t.target)

/-- `dropCols` (lines 232–236). -/
def dropColsOf (cfg : IngestCfg) (features : List String) : List String :=
  features.filter (fun c => (effectiveStrategy cfg c).isDropRow)

/-- `globalDrop = config.globalStrategy === 'drop-row'` (line 237). -/
def globalDropOf (cfg : IngestCfg) : Bool :=
  cfg.globalStrategy == some .dropRow

/-- `targetDrop` (lines 238–249). -/
def targetDropOf (cfg : IngestCfg) (features : List String) (target : Option String) :
    Bool :=
  match target with
  | none => false
  | some _ =>
    if globalDropOf cfg then true
    else
      match effectiveTargetStrategy cfg with
      | some s => s.isDropRow
      | none => !(dropColsOf cfg features).isEmpty

/-- `presentValues` of a column (lines 265–267): non-missing cells across
the whole (normalized) table. -/
def presentValues (rows : List (String → String)) (col : String) : List String :=
  (rows.map (fun r => r col)).filter (fun v => v != "")

/-- Key list of the JS `Map` built by insertion: distinct values in
first-seen order. -/
def firstSeenKeys : List String → List String
  | [] => []
  | v :: rest => v :: firstSeenKeys (rest.filter (fun w => w != v))
termination_by l => l.length
decreasing_by
  simp only [List.length_cons]
  exact Nat.lt_succ_of_le (rest.length_filter_le _)

/-- One step of the mode loop (lines 280–285): a strictly greater count
replaces the current best. -/
def modeStep (l : List String) (best : String × ℕ) (v : String) : String × ℕ :=
  if l.count v > best.2 then (v, l.count v) else best

/-- The mode loop (lines 272–287): iterate the counts map in insertion
order, keeping the first strictly-greater count; `best` starts at
`presentValues[0]` with count `0`. -/
def modeOf (l : List String) : String :=
  ((firstSeenKeys l).foldl (modeStep l) (l.headD "", 0)).1

/-- Insertion into a sorted list (ascending). -/
def insertSorted (x : ℚ) : List ℚ → List ℚ
  | [] => [x]
  | y :: ys => if x ≤ y then x :: y :: ys else y :: insertSorted x ys

/-- `[...numeric].sort((a, b) => a - b)` — ascending numeric sort
(insertion sort, extensionally the JS result on numbers). -/
def sortQ (l : List ℚ) : List ℚ := l.foldr insertSorted []

/-- `numeric.reduce((s, v) => s + v, 0)`. -/
def qSum (l : List ℚ) : ℚ := l.foldl (· + ·) 0

/-- The per-column replacement value (lines 251–304); `none` models
`replacements[col] === undefined`. -/
def replacementFor (rows : List (String → String)) (cfg : IngestCfg) (col : String) :
    Option JsVal :=
  match effectiveStrategy cfg col with
  | .simple .leaveAsIs => none
  | .simple .dropRow => none
  | .simple .zero => some (.num 0)
  | .constant v => some v
  | .simple s =>
    let present := presentValues rows col
    if present.isEmpty then some (.num 0)
    else
      match s with
      | .mode => some (.str (modeOf present))
      | _ =>
        let numeric := present.filterMap jsNum
        if numeric.isEmpty then some (.str (present.headD ""))
        else
          match s with
          | .mean => some (.num (qSum numeric / (numeric.length : ℚ)))
          | _ =>
            let sorted := sortQ numeric
            let mid := sorted.length / 2
            some (.num (if sorted.length % 2 = 0
              then (sorted.getD (mid - 1) 0 + sorted.getD mid 0) / 2
              else sorted.getD mid 0))

/-- The row-keep predicate of the filtering pass (lines 308–319). -/
def keepRow (features dropCols : List String) (target : Option String)
    (globalDrop targetDrop : Bool) (r : String → String) : Bool :=
  if (if globalDrop then features else dropCols).any (fun c => r c == "") then false
  else if targetDrop then
    match target with
    | some t => r t != ""
    | none => true
  else true

/-- Rows surviving the (conditional) filtering pass (lines 305–320). -/
def filteredRows (t : ParsedTable) (cfg : IngestCfg) : List (String → String) :=
  let nrows := normRows t
  let dropCols := dropColsOf cfg t.features
  let gd := globalDropOf cfg
  let td := targetDropOf cfg t.features t.target
  if gd || !dropCols.isEmpty || td then
    nrows.filter (keepRow t.features dropCols t.target gd td)
  else nrows

/-- One step of the imputation loop body (lines 325–333) for feature
column `c`. -/
def imputeStep (rows : List (String → String)) (cfg : IngestCfg)
    (nr : String → JsVal) (c : String) : String → JsVal :=
  if (effectiveStrategy cfg c).isPassive then nr
  else if (nr c).isMissing then
    match replacementFor rows cfg c with
    | some v => fun x => if x = c then v else nr x
    | none => nr
  else nr

/-- The imputation pass on one row (lines 323–335): still-missing cells of
actively-imputed feature columns receive the precomputed replacement. -/
def imputeRow (rows : List (String → String)) (cfg : IngestCfg)
    (features : List String) (r : String → String) : String → JsVal :=
  features.foldl (imputeStep rows cfg) (fun c => .str (r c))

/-- The final row set handed to the `Dataset` record. -/
def finalRows (t : ParsedTable) (cfg : IngestCfg) : List (String → JsVal) :=
  (filteredRows t cfg).map (imputeRow (normRows t) cfg t.features)

/-- `rows.map(r => r[target]).filter(v => v !== '' && v !== null &&
v !== undefined)` (lines 342–344 / 360–363). -/
def targetValuesOf (rows : List (String → JsVal)) (target : Option String) :
    List JsVal :=
  match target with
  | none => []
  | some t => (rows.map (fun r => r t)).filter (fun v => !v.isMissing)

inductive TargetType where
  | classification | regression
  deriving DecidableEq, Repr

/-- Number of distinct elements (`new Set(l).size`). -/
def distinctCount {α : Type} [DecidableEq α] (l : List α) : ℕ := l.dedup.length

/-- Target-type inference of `finalize` (lines 341–351).  The JS float
comparison `uniq.size < values.length * 0.1` is modelled by the exact
comparison `10 * uniq < values.length`: it is only reached when
`uniq ≤ 10`, and for every `u ≤ 10` and every list length `n` the IEEE
double `fl(n · fl(0.1))` compares with the integer `u` exactly as the
rational `n/10` does (at the boundary `n = 10u` the product rounds to
exactly `u`, making both comparisons false). -/
def inferTargetTypeFinal (vals : List JsVal) : TargetType :=
  if vals.isEmpty then .regression
  else
    let numeric := vals.filter (fun v => (jsToNum v).isSome)
    if numeric.length ≠ vals.length then .classification
    else
      let uniq := distinctCount (numeric.filterMap jsToNum)
      if uniq ≤ 10 && 10 * uniq < vals.length then .classification else .regression

/-- The `Dataset` record assembled by `finalize` (lines 337–374), together
with its `imputationSummary`. -/
structure FinalDataset where
  rows : List (String → JsVal)
  features : List String
  target : Option String
  targetType : TargetType
  numSamples : ℕ
  numFeatures : ℕ
  numClasses : Option ℕ
  originalRowCount : ℕ
  droppedRowCount : ℕ
  dropApplied : Bool
  dropColumns : List String
  globalDrop : Bool
  targetDrop : Bool

/-- The whole `finalize` data path after the base parse succeeded. -/
def finalize (t : ParsedTable) (cfg : IngestCfg) : FinalDataset :=
  let nrows := normRows t
  let dropCols := dropColsOf cfg t.features
  let gd := globalDropOf cfg
  let td := targetDropOf cfg t.features t.target
  let kept := filteredRows t cfg
  let frows := kept.map (imputeRow nrows cfg t.features)
  let vals := targetValuesOf frows t.target
  let tt := inferTargetTypeFinal vals
  { rows := frows
    features := t.features
    target := t.target
    targetType := tt
    numSamples := frows.length
    numFeatures := t.features.length
    numClasses := if tt = .classification then some (distinctCount vals) else none
    originalRowCount := nrows.length
    droppedRowCount := nrows.length - kept.length
    dropApplied := gd || !dropCols.isEmpty || td
    dropColumns := dropCols
    globalDrop := gd
    targetDrop := td }

/-! ## The column profiler (`generatePreview`, lines 788–837) -/

inductive InferredType where
  | numeric | categorical | mixed | empty
  deriving DecidableEq, Repr

structure ColumnStats where
  missing : ℕ
  inferredType : InferredType
  unique : ℕ
  placeholderMissing : ℕ
  numericFraction : Option ℚ
  deriving DecidableEq, Repr

/-- Per-column statistics over the column's data-region cell values
(parser lines 799–836). -/
def columnStats (values : List String) : ColumnStats :=
  let nonMissing := values.filter (fun v => v != "")
  let placeholderCount := (nonMissing.filter isPlaceholderTok).length
  let missingCount := values.length - nonMissing.length
  let inferredType :=
    if values.isEmpty then InferredType.empty
    else
      let numericCount := (nonMissing.filter (fun v =>
        if isPlaceholderTok v then false else (jsNum v).isSome)).length
      if numericCount = 0 then InferredType.categorical
      else if numericCount = nonMissing.length then InferredType.numeric
      else InferredType.mixed
  { missing := missingCount
    inferredType := inferredType
    unique := distinctCount nonMissing
    placeholderMissing := placeholderCount
    numericFraction :=
      if nonMissing.isEmpty then none
      else some (((nonMissing.filter (fun v => (jsNum v).isSome)).length : ℚ) /
        (nonMissing.length : ℚ)) }

/-! ## Field projections of `finalize` -/

theorem finalize_rows (t : ParsedTable) (cfg : IngestCfg) :
    (finalize t cfg).rows = finalRows t cfg := rfl

theorem finalize_numSamples (t : ParsedTable) (cfg : IngestCfg) :
    (finalize t cfg).numSamples = (finalRows t cfg).length := rfl

theorem finalize_droppedRowCount (t : ParsedTable) (cfg : IngestCfg) :
    (finalize t cfg).droppedRowCount =
      (normRows t).length - (filteredRows t cfg).length := rfl

theorem finalize_targetType (t : ParsedTable) (cfg : IngestCfg) :
    (finalize t cfg).targetType =
      inferTargetTypeFinal (targetValuesOf (finalRows t cfg) t.target) := rfl

theorem finalize_numClasses (t : ParsedTable) (cfg : IngestCfg) :
    (finalize t cfg).numClasses =
      (if inferTargetTypeFinal (targetValuesOf (finalRows t cfg) t.target) =
          .classification
       then some (distinctCount (targetValuesOf (finalRows t cfg) t.target))
       else none) := rfl

theorem finalize_targetDrop (t : ParsedTable) (cfg : IngestCfg) :
    (finalize t cfg).targetDrop = targetDropOf cfg t.features t.target := rfl

/-! ## Behaviour of the imputation fold -/

theorem imputeStep_apply_ne (rows : List (String → String)) (cfg : IngestCfg)
    (nr : String → JsVal) {c x : String} (hx : x ≠ c) :
    imputeStep rows cfg nr c x = nr x := by
  unfold imputeStep
  split
  · rfl
  · split
    · cases replacementFor rows cfg c with
      | some v => simp [if_neg hx]
      | none => rfl
    · rfl

theorem imputeStep_of_nonMissing (rows : List (String → String)) (cfg : IngestCfg)
    (nr : String → JsVal) {c : String} (h : (nr c).isMissing = false) :
    imputeStep rows cfg nr c = nr := by
  unfold imputeStep
  split
  · rfl
  · rw [h]
    simp

theorem foldl_imputeStep_apply_notin (rows : List (String → String))
    (cfg : IngestCfg) {c : String} :
    ∀ (fs : List String) (nr : String → JsVal), c ∉ fs →
      (fs.foldl (imputeStep rows cfg) nr) c = nr c := by
  intro fs
  induction fs with
  | nil => intro nr _; rfl
  | cons f fs' ih =>
    intro nr hc
    have hcf : c ≠ f := fun e => hc (e ▸ List.mem_cons_self f fs')
    have hc' : c ∉ fs' := fun hm => hc (List.mem_cons_of_mem _ hm)
    rw [List.foldl_cons, ih _ hc']
    exact imputeStep_apply_ne rows cfg nr hcf

theorem foldl_imputeStep_of_clean (rows : List (String → String))
    (cfg : IngestCfg) :
    ∀ (fs : List String) (nr : String → JsVal),
      (∀ c ∈ fs, (nr c).isMissing = false) →
      fs.foldl (imputeStep rows cfg) nr = nr := by
  intro fs
  induction fs with
  | nil => intro nr _; rfl
  | cons f fs' ih =>
    intro nr hclean
    rw [List.foldl_cons,
      imputeStep_of_nonMissing rows cfg nr (hclean f (List.mem_cons_self f fs'))]
    exact ih nr (fun c hc => hclean c (List.mem_cons_of_mem _ hc))

/-- A row with no missing feature cells passes the imputation loop
unchanged. -/
theorem imputeRow_of_clean (rows : List (String → String)) (cfg : IngestCfg)
    (features : List String) (r : String → String)
    (h : ∀ c ∈ features, (r c == "") = false) :
    imputeRow rows cfg features r = fun c => JsVal.str (r c) := by
  unfold imputeRow
  exact foldl_imputeStep_of_clean rows cfg features _
    (fun c hc => by simpa [JsVal.isMissing] using h c hc)

/-- The imputation loop never writes to a column outside `features`. -/
theorem imputeRow_apply_notin (rows : List (String → String)) (cfg : IngestCfg)
    (features : List String) (r : String → String) {c : String}
    (h : c ∉ features) :
    imputeRow rows cfg features r c = JsVal.str (r c) :=
  foldl_imputeStep_apply_notin rows cfg features _ h

/-! ## Behaviour of the row filter -/

theorem keepRow_spec_globalDrop {features dropCols : List String}
    {target : Option String} {td : Bool} {r : String → String}
    (h : keepRow features dropCols target true td r = true) :
    (∀ c ∈ features, (r c == "") = false) ∧
      (td = true → ∀ tc, target = some tc → (r tc == "") = false) := by
  unfold keepRow at h
  constructor
  · intro c hc
    by_cases hany : features.any (fun c => r c == "") = true
    · rw [if_pos] at h
      · exact absurd h (by simp)
      · simpa using hany
    · have := List.any_eq_false.mp (Bool.eq_false_iff.mpr hany)
      simpa using this c hc
  · intro htd tc htc
    have hany : (features.any (fun c => r c == "")) = false := by
      by_cases hany : features.any (fun c => r c == "") = true
      · rw [if_pos (by simpa using hany)] at h
        exact absurd h (by simp)
      · exact Bool.eq_false_iff.mpr hany
    rw [if_neg (by simp [hany]), htd, if_pos rfl, htc] at h
    simpa using h

theorem isDropRow_eq_true_iff (s : ColStrategy) :
    s.isDropRow = true ↔ s = .simple .dropRow := by
  cases s with
  | simple ss => cases ss <;> simp [ColStrategy.isDropRow]
  | constant v => simp [ColStrategy.isDropRow]

/-! ## Concrete fixtures used by witnesses and counterexamples -/

/-- A two-column row keyed `"a"` / `"b"`. -/
def wRowAB (a b : String) : String → String :=
  fun c => if c = "a" then a else if c = "b" then b else ""

def wTableAB : ParsedTable := ⟨[wRowAB "1" "", wRowAB "2" "3"], ["a"], some "b"⟩

def wCfgZero : IngestCfg := ⟨some .zero, fun _ => none, some "b"⟩

def wCfgDrop : IngestCfg := ⟨some .dropRow, fun _ => none, some "b"⟩

def wCfgPlainB : IngestCfg := ⟨none, fun _ => none, some "b"⟩

def wCfgC6 : IngestCfg :=
  ⟨none, fun c => if c = "x" then some (.simple .dropRow) else none, some "y"⟩

def wTableC9 : ParsedTable := ⟨[wRowAB "" "na"], ["a"], some "b"⟩

def wCfgMode : IngestCfg :=
  ⟨none, fun c => if c = "a" then some (.simple .mode) else none, some "b"⟩

def wTableC7 : ParsedTable :=
  ⟨[wRowAB "u" "1", wRowAB "w" "2", wRowAB "u" "3", wRowAB "" "4"],
   ["a"], some "b"⟩

def wTableC10 : ParsedTable := ⟨[wRowAB "1" "na"], ["a"], some "b"⟩

/-- A row with a feature column `"x"` and target column `"y"`. -/
def wRowXY (v : String) : String → String :=
  fun c => if c = "y" then v else if c = "x" then "7" else ""

/-- Ten data rows whose target values alternate `1, 0`. -/
def wTable10 : ParsedTable :=
  ⟨[wRowXY "1", wRowXY "0", wRowXY "1", wRowXY "0", wRowXY "1",
    wRowXY "0", wRowXY "1", wRowXY "0", wRowXY "1", wRowXY "0"],
   ["x"], some "y"⟩

def wCfgPlainY : IngestCfg := ⟨none, fun _ => none, some "y"⟩

/-! ## Claim theorems: drop/impute row accounting -/

/-- C4: for every input table and configuration in which no effective
strategy — global, any feature override, or target — is `drop-row`,
`finalize` removes no rows: the final row count equals the original
data-row count and `droppedRowCount = 0`. -/
theorem C4_no_drop_strategy_preserves_rows (t : ParsedTable) (cfg : IngestCfg)
    (hg : cfg.globalStrategy ≠ some .dropRow)
    (hf : ∀ c ∈ t.features, effectiveStrategy cfg c ≠ .simple .dropRow)
    (ht : effectiveTargetStrategy cfg ≠ some (.simple .dropRow)) :
    (finalize t cfg).numSamples = t.rows.length ∧
      (finalize t cfg).droppedRowCount = 0 := by
  have hgd : globalDropOf cfg = false := by
    unfold globalDropOf
    exact beq_eq_false_iff_ne.mpr hg
  have hdc : dropColsOf cfg t.features = [] := by
    unfold dropColsOf
    rw [List.filter_eq_nil_iff]
    intro c hc hdrop
    exact hf c hc ((isDropRow_eq_true_iff _).mp hdrop)
  have htd : targetDropOf cfg t.features t.target = false := by
    unfold targetDropOf
    cases t.target with
    | none => rfl
    | some tc =>
      rw [hgd]
      cases heff : effectiveTargetStrategy cfg with
      | some s =>
        simp only [Bool.false_eq_true, if_false]
        rw [Bool.eq_false_iff]
        intro hdrop
        exact ht (heff ▸ congrArg some ((isDropRow_eq_true_iff _).mp hdrop))
      | none => simp [hdc]
  have hfilter : filteredRows t cfg = normRows t := by
    unfold filteredRows
    rw [hgd, hdc, htd]
    simp
  constructor
  · rw [finalize_numSamples]
    unfold finalRows
    rw [hfilter, List.length_map]
    unfold normRows
    exact List.length_map _ _
  · rw [finalize_droppedRowCount, hfilter]
    exact Nat.sub_self _

/-- C4 witness: the `globalStrategy = zero` configuration on a two-row table
keeps both rows and reports no drops. -/
theorem C4_witness :
    (finalize wTableAB wCfgZero).numSamples = 2 ∧
      (finalize wTableAB wCfgZero).droppedRowCount = 0 := by
  have h := C4_no_drop_strategy_preserves_rows wTableAB wCfgZero
    (by decide) (by decide) (by decide)
  exact ⟨by rw [h.1]; rfl, h.2⟩

/-- C5: when `globalStrategy = drop-row`, every surviving row has a
non-missing value in every feature column, and — when `targetDrop` holds
and a target column exists — a non-missing target value. -/
theorem C5_global_drop_rows_clean (t : ParsedTable) (cfg : IngestCfg)
    (hg : cfg.globalStrategy = some .dropRow) :
    ∀ r ∈ (finalize t cfg).rows,
      (∀ c ∈ t.features, (r c).isMissing = false) ∧
      ((finalize t cfg).targetDrop = true →
        ∀ tc, t.target = some tc → (r tc).isMissing = false) := by
  intro r hr
  rw [finalize_rows] at hr
  unfold finalRows at hr
  obtain ⟨r₀, hr₀, rfl⟩ := List.mem_map.mp hr
  have hgd : globalDropOf cfg = true := by
    unfold globalDropOf
    rw [hg]
    rfl
  have hmemf : r₀ ∈ (normRows t).filter
      (keepRow t.features (dropColsOf cfg t.features) t.target true
        (targetDropOf cfg t.features t.target)) := by
    unfold filteredRows at hr₀
    rw [hgd] at hr₀
    simpa using hr₀
  obtain ⟨hr₀n, hkeep⟩ := List.mem_filter.mp hmemf
  obtain ⟨hfeat, htarg⟩ := keepRow_spec_globalDrop hkeep
  rw [imputeRow_of_clean (normRows t) cfg t.features r₀ hfeat]
  constructor
  · intro c hc
    simp [JsVal.isMissing, hfeat c hc]
  · intro htd tc htc
    rw [finalize_targetDrop] at htd
    simp [JsVal.isMissing, htarg htd tc htc]

/-- C5 witness: on the table whose first row has a missing target, the
surviving row's feature cell is non-missing. -/
theorem C5_witness :
    ((imputeRow (normRows wTableAB) wCfgDrop wTableAB.features
        (normRow wTableAB.features wTableAB.target (wRowAB "2" "3"))) "a").isMissing
      = false := by
  have hmem : imputeRow (normRows wTableAB) wCfgDrop wTableAB.features
      (normRow wTableAB.features wTableAB.target (wRowAB "2" "3")) ∈
        (finalize wTableAB wCfgDrop).rows := by
    rw [show (finalize wTableAB wCfgDrop).rows =
      [imputeRow (normRows wTableAB) wCfgDrop wTableAB.features
        (normRow wTableAB.features wTableAB.target (wRowAB "2" "3"))] from rfl]
    exact List.mem_singleton_self _
  exact (C5_global_drop_rows_clean wTableAB wCfgDrop rfl _ hmem).1 "a" (by decide)

/-- C6: `targetDrop` is false when no target column exists; true when the
global strategy is `drop-row`; otherwise equal to whether the target's
effective strategy (override, else global) resolves to `drop-row`; and,
when no explicit target strategy exists at all, true iff some feature's
effective strategy is `drop-row`. -/
theorem C6_targetDrop_resolution (cfg : IngestCfg) (features : List String)
    (target : Option String) :
    (target = none → targetDropOf cfg features target = false) ∧
    (∀ tc, target = some tc → globalDropOf cfg = true →
      targetDropOf cfg features target = true) ∧
    (∀ tc, target = some tc → globalDropOf cfg = false →
      ∀ s, effectiveTargetStrategy cfg = some s →
        targetDropOf cfg features target = s.isDropRow) ∧
    (∀ tc, target = some tc → globalDropOf cfg = false →
      effectiveTargetStrategy cfg = none →
      (targetDropOf cfg features target = true ↔
        dropColsOf cfg features ≠ [])) := by
  refine ⟨?_, ?_, ?_, ?_⟩
  · intro h
    subst h
    rfl
  · intro tc h hgd
    subst h
    unfold targetDropOf
    rw [hgd]
    rfl
  · intro tc h hgd s heff
    subst h
    unfold targetDropOf
    rw [hgd, heff]
    simp
  · intro tc h hgd heff
    subst h
    unfold targetDropOf
    rw [hgd, heff]
    simp

/-- C6 witness: with no global strategy, no target override, and one
feature set to `drop-row`, the fallback makes `targetDrop` true. -/
theorem C6_witness : targetDropOf wCfgC6 ["x"] (some "y") = true := by
  have h := (C6_targetDrop_resolution wCfgC6 ["x"] (some "y")).2.2.2 "y" rfl
    (by decide) (by decide)
  exact h.mpr (by decide)

/-- C9: the imputation step never writes to the target column — when the
target is not a feature, every final row's target cell is exactly the
normalized, pre-imputation value of the corresponding filtered row. -/
theorem C9_target_cell_not_imputed (t : ParsedTable) (cfg : IngestCfg)
    (hnf : ∀ tc, t.target = some tc → tc ∉ t.features) :
    ∀ tc, t.target = some tc →
      ((finalize t cfg).rows).map (fun r => r tc) =
        (filteredRows t cfg).map (fun r => JsVal.str (r tc)) := by
  intro tc htc
  rw [finalize_rows]
  unfold finalRows
  rw [List.map_map]
  apply List.map_congr_left
  intro r₀ _
  exact imputeRow_apply_notin (normRows t) cfg t.features r₀ (hnf tc htc)

/-- C9 witness: with an imputing strategy (`zero`) on the features, the
target cell of the single final row is the normalized raw value. -/
theorem C9_witness :
    ((finalize wTableC9 wCfgZero).rows).map (fun r => r "b") =
      (filteredRows wTableC9 wCfgZero).map (fun r => JsVal.str (r "b")) := by
  exact C9_target_cell_not_imputed wTableC9 wCfgZero
    (by intro tc htc; injection htc with h; subst h; decide) "b" rfl

/-- C10: if every final row's target cell is missing, `finalize` still
produces a dataset (the model is total past the base parse) with
`targetType = regression` and `numClasses` unset. -/
theorem C10_all_missing_target_regression (t : ParsedTable) (cfg : IngestCfg)
    (tc : String) (htc : t.target = some tc)
    (hall : ∀ r ∈ finalRows t cfg, (r tc).isMissing = true) :
    (finalize t cfg).targetType = .regression ∧
      (finalize t cfg).numClasses = none := by
  have hvals : targetValuesOf (finalRows t cfg) t.target = [] := by
    rw [htc]
    unfold targetValuesOf
    rw [List.filter_eq_nil_iff]
    intro v hv
    obtain ⟨r, hr, rfl⟩ := List.mem_map.mp hv
    simp [hall r hr]
  constructor
  · rw [finalize_targetType, hvals]
    rfl
  · rw [finalize_numClasses, hvals]
    rfl

/-- C10 witness: a one-row table whose target cell is the placeholder
`"na"` finalizes to a regression dataset without `numClasses`. -/
theorem C10_witness :
    (finalize wTableC10 wCfgPlainB).targetType = .regression ∧
      (finalize wTableC10 wCfgPlainB).numClasses = none := by
  apply C10_all_missing_target_regression wTableC10 wCfgPlainB "b" rfl
  intro r hr
  rw [show finalRows wTableC10 wCfgPlainB =
    [imputeRow (normRows wTableC10) wCfgPlainB wTableC10.features
      (normRow wTableC10.features wTableC10.target (wRowAB "1" "na"))] from rfl] at hr
  obtain rfl := List.mem_singleton.mp hr
  decide

/-! ## Claim theorems: target-type inference threshold -/

theorem ite_classification_iff {b : Bool} :
    (if b = true then TargetType.classification else TargetType.regression) =
        TargetType.classification ↔ b = true := by
  by_cases hb : b = true
  · simp [hb]
  · simp [hb]

/-- C1 (amended general rule): for all-numeric (non-missing) final target
values, the inferred type is `classification` iff the distinct parsed-value
count is at most 10 and strictly below a tenth of the value count; the
spec's concrete example `[1,0,1,0,1,0,1,0,1,0]` therefore yields
`regression` (see the counterexample), since `2 < 10 · 0.1` fails. -/
theorem C1_targetType_threshold (t : ParsedTable) (cfg : IngestCfg)
    (hnum : ∀ v ∈ targetValuesOf (finalRows t cfg) t.target,
      (jsToNum v).isSome = true) :
    ((finalize t cfg).targetType = .classification ↔
      (distinctCount ((targetValuesOf (finalRows t cfg) t.target).filterMap jsToNum)
          ≤ 10 ∧
        10 * distinctCount
            ((targetValuesOf (finalRows t cfg) t.target).filterMap jsToNum) <
          (targetValuesOf (finalRows t cfg) t.target).length)) := by
  rw [finalize_targetType]
  set vals := targetValuesOf (finalRows t cfg) t.target with hvals
  unfold inferTargetTypeFinal
  by_cases hemp : vals.isEmpty
  · rw [if_pos hemp]
    have hv : vals = [] := List.isEmpty_iff.mp hemp
    rw [hv]
    simp [distinctCount]
  · rw [if_neg hemp]
    have hfe : vals.filter (fun v => (jsToNum v).isSome) = vals :=
      List.filter_eq_self.mpr hnum
    rw [hfe, if_neg (fun h => h rfl), ite_classification_iff]
    simp

/-- C1 witness: the threshold equivalence evaluated on the ten-row
alternating `1, 0` target table. -/
theorem C1_witness :
    (finalize wTable10 wCfgPlainY).targetType = .classification ↔
      (distinctCount ((targetValuesOf (finalRows wTable10 wCfgPlainY)
          wTable10.target).filterMap jsToNum) ≤ 10 ∧
        10 * distinctCount ((targetValuesOf (finalRows wTable10 wCfgPlainY)
            wTable10.target).filterMap jsToNum) <
          (targetValuesOf (finalRows wTable10 wCfgPlainY) wTable10.target).length) :=
  C1_targetType_threshold wTable10 wCfgPlainY (by decide)

/-- C1 counterexample: the claim's example table — ten non-missing target
values `[1,0,1,0,1,0,1,0,1,0]` (2 distinct, all numeric) — is finalized
with `targetType = regression` and no `numClasses`, not `classification`
with `numClasses = 2`: the code's own `2 < 10 * 0.1` test fails. -/
theorem C1_counterexample :
    targetValuesOf (finalRows wTable10 wCfgPlainY) wTable10.target =
      [JsVal.str "1", JsVal.str "0", JsVal.str "1", JsVal.str "0", JsVal.str "1",
       JsVal.str "0", JsVal.str "1", JsVal.str "0", JsVal.str "1", JsVal.str "0"] ∧
    (finalize wTable10 wCfgPlainY).targetType = .regression ∧
    (finalize wTable10 wCfgPlainY).numClasses = none :=
  ⟨by decide, by decide, by decide⟩

/-! ## Claim theorems: column-name resolution -/

/-- C3: header-cell normalization (trim, empty → `"col"`), first occurrence
kept unchanged, the k-th later duplicate renamed `"{base}_{k}"`, order of
first appearance preserved (the closed form is positional); the preview
path and the finalize parse path resolve identically; and
`["x","x","y"]` resolves to `["x","x_1","y"]`. -/
theorem C3_column_name_resolution (hdr : List String) :
    previewColumns hdr = parseColumns hdr ∧
    parseColumns hdr = (List.range hdr.length).map (fun i =>
      dedupName ((hdr.map normName).getD i "")
        (((hdr.map normName).take i).count ((hdr.map normName).getD i ""))) ∧
    parseColumns ["x", "x", "y"] = ["x", "x_1", "y"] :=
  ⟨preview_eq_parse_columns hdr, parseColumns_closed hdr, by decide⟩

/-- C2 (amended): resolved column names are pairwise distinct for every
in-range `(skipRows, headerRow)` pair provided the header is *clean* — no
normalized header cell already spells a generatable suffixed name `b_k`
(`1 ≤ k <` occurrences of `b`).  Headers containing such pre-suffixed
names can collide (see the counterexample). -/
theorem C2_clean_header_columns_distinct (rows : List (List String))
    (skipRows headerRow : ℕ)
    (h1 : skipRows < rows.length)
    (h2 : skipRows + headerRow < rows.length)
    (hclean : cleanHeaderB
      (((rows.drop skipRows).getD headerRow []).map normName) = true) :
    resolvedColumns rows skipRows headerRow =
      some (parseColumns ((rows.drop skipRows).getD headerRow [])) ∧
    (parseColumns ((rows.drop skipRows).getD headerRow [])).Nodup ∧
    (previewColumns ((rows.drop skipRows).getD headerRow [])).Nodup := by
  refine ⟨?_, parseColumns_nodup _ hclean, ?_⟩
  · unfold resolvedColumns
    rw [if_neg (by omega), if_neg (by omega), if_neg ?_]
    rw [List.length_drop]
    omega
  · rw [preview_eq_parse_columns]
    exact parseColumns_nodup _ hclean

/-- C2 witness: the clean header `["x","x","y"]` resolves to the pairwise
distinct `["x","x_1","y"]`. -/
theorem C2_witness :
    resolvedColumns [["x", "x", "y"], ["1", "2", "3"]] 0 0 =
      some ["x", "x_1", "y"] ∧
    (["x", "x_1", "y"] : List String).Nodup := by
  have h := C2_clean_header_columns_distinct [["x", "x", "y"], ["1", "2", "3"]] 0 0
    (by decide) (by decide) (by decide)
  exact ⟨by rw [h.1]; decide, by decide⟩

/-- C2 counterexample: the header `["x","x","x_1"]` (in range, arbitrary
contents allowed by the claim) resolves to `["x","x_1","x_1"]`, which is
not pairwise distinct — the duplicate-resolution suffix collides with the
pre-existing `"x_1"`. -/
theorem C2_counterexample :
    resolvedColumns [["x", "x", "x_1"], ["1", "2", "3"]] 0 0 =
      some ["x", "x_1", "x_1"] ∧
    ¬ (["x", "x_1", "x_1"] : List String).Nodup :=
  ⟨by decide, by decide⟩

/-! ## The mode computation -/

theorem mem_firstSeenKeys (l : List String) (v : String) :
    v ∈ firstSeenKeys l ↔ v ∈ l := by
  induction l using firstSeenKeys.induct with
  | case1 => simp [firstSeenKeys]
  | case2 h rest ih =>
    rw [firstSeenKeys]
    constructor
    · intro hv
      rcases List.mem_cons.mp hv with rfl | hv
      · exact List.mem_cons_self _ _
      · have := (ih.mp hv)
        exact List.mem_cons_of_mem _ (List.mem_filter.mp this).1
    · intro hv
      rcases List.mem_cons.mp hv with rfl | hv
      · exact List.mem_cons_self _ _
      · by_cases hvh : v = h
        · exact hvh ▸ List.mem_cons_self _ _
        · refine List.mem_cons_of_mem _ (ih.mpr ?_)
          rw [List.mem_filter]
          exact ⟨hv, by simpa using hvh⟩

/-- Filtering preserves the relative order of first occurrences. -/
theorem indexOf_lt_of_filter_indexOf_lt (p : String → Bool) :
    ∀ (l : List String) (a b : String), p a = true → p b = true →
      (l.filter p).indexOf a < (l.filter p).indexOf b →
      l.indexOf a < l.indexOf b := by
  intro l
  induction l with
  | nil =>
    intro a b _ _ h
    simp at h
  | cons c t ih =>
    intro a b hpa hpb h
    by_cases hpc : p c = true
    · rw [List.filter_cons_of_pos hpc] at h
      by_cases hac : a = c
      · subst hac
        have hba : b ≠ a := by
          intro e
          subst e
          simp [List.indexOf_cons_self] at h
        rw [List.indexOf_cons_self]
        rw [List.indexOf_cons_ne _ (fun e => hba e.symm)]
        exact Nat.succ_pos _
      · by_cases hbc : b = c
        · subst hbc
          rw [List.indexOf_cons_self, List.indexOf_cons_ne _ (fun e => hac e.symm)] at h
          exact absurd h (Nat.not_lt_zero _)
        · rw [List.indexOf_cons_ne _ (fun e => hac e.symm),
            List.indexOf_cons_ne _ (fun e => hbc e.symm)] at h
          rw [List.indexOf_cons_ne _ (fun e => hac e.symm),
            List.indexOf_cons_ne _ (fun e => hbc e.symm)]
          exact Nat.succ_lt_succ (ih a b hpa hpb (Nat.lt_of_succ_lt_succ h))
    · have hca : c ≠ a := fun e => hpc (e ▸ hpa)
      have hcb : c ≠ b := fun e => hpc (e ▸ hpb)
      rw [List.filter_cons_of_neg (by simpa using hpc)] at h
      rw [List.indexOf_cons_ne _ hca, List.indexOf_cons_ne _ hcb]
      exact Nat.succ_lt_succ (ih a b hpa hpb h)

/-- The first-seen key list is ordered by first occurrence. -/
theorem pairwise_indexOf_firstSeenKeys (l : List String) :
    (firstSeenKeys l).Pairwise (fun a b => l.indexOf a < l.indexOf b) := by
  induction l using firstSeenKeys.induct with
  | case1 => simp [firstSeenKeys]
  | case2 v rest ih =>
    rw [firstSeenKeys, List.pairwise_cons]
    constructor
    · intro b hb
      have hbf := (mem_firstSeenKeys _ b).mp hb
      have hbv : b ≠ v := by
        have := (List.mem_filter.mp hbf).2
        simpa using this
      rw [List.indexOf_cons_self, List.indexOf_cons_ne _ (fun e => hbv e.symm)]
      exact Nat.succ_pos _
    · refine (ih.imp_of_mem ?_)
      intro a b ha hb hab
      have haf := (mem_firstSeenKeys _ a).mp ha
      have hbf := (mem_firstSeenKeys _ b).mp hb
      have hav : a ≠ v := by simpa using (List.mem_filter.mp haf).2
      have hbv : b ≠ v := by simpa using (List.mem_filter.mp hbf).2
      have hrest := indexOf_lt_of_filter_indexOf_lt _ rest a b
        (by simpa using hav) (by simpa using hbv) hab
      rw [List.indexOf_cons_ne _ (fun e => hav e.symm),
        List.indexOf_cons_ne _ (fun e => hbv e.symm)]
      exact Nat.succ_lt_succ hrest

/-- Invariant of the mode fold: the final best entry is either the
untouched initial state dominating every candidate, or a candidate with
its true count, maximal among candidates, earliest (in first-occurrence
order) among ties. -/
theorem foldl_modeStep_spec (l : List String) :
    ∀ (ds : List String) (b₀ : String) (c₀ : ℕ),
      (∀ v ∈ ds, v ∈ l) →
      ds.Pairwise (fun a b => l.indexOf a < l.indexOf b) →
      (ds.foldl (modeStep l) (b₀, c₀) = (b₀, c₀) ∧ ∀ v ∈ ds, l.count v ≤ c₀) ∨
      ((ds.foldl (modeStep l) (b₀, c₀)).1 ∈ ds ∧
        (ds.foldl (modeStep l) (b₀, c₀)).2 =
          l.count (ds.foldl (modeStep l) (b₀, c₀)).1 ∧
        c₀ < (ds.foldl (modeStep l) (b₀, c₀)).2 ∧
        (∀ v ∈ ds, l.count v ≤ (ds.foldl (modeStep l) (b₀, c₀)).2) ∧
        (∀ v ∈ ds, l.count v = (ds.foldl (modeStep l) (b₀, c₀)).2 →
          l.indexOf (ds.foldl (modeStep l) (b₀, c₀)).1 ≤ l.indexOf v)) := by
  intro ds
  induction ds with
  | nil =>
    intro b₀ c₀ _ _
    exact Or.inl ⟨rfl, by simp⟩
  | cons v ds' ih =>
    intro b₀ c₀ hmem hpw
    have hmem' : ∀ w ∈ ds', w ∈ l := fun w hw => hmem w (List.mem_cons_of_mem _ hw)
    have hpw' := hpw.of_cons
    have hvlt : ∀ w ∈ ds', l.indexOf v < l.indexOf w := (List.pairwise_cons.mp hpw).1
    rw [List.foldl_cons]
    by_cases hgt : l.count v > c₀
    · rw [show modeStep l (b₀, c₀) v = (v, l.count v) from if_pos hgt]
      rcases ih v (l.count v) hmem' hpw' with ⟨heq, hle⟩ | ⟨hm, hc, hlt, hle, htie⟩
      · refine Or.inr ?_
        rw [heq]
        refine ⟨List.mem_cons_self _ _, rfl, hgt, ?_, ?_⟩
        · intro w hw
          rcases List.mem_cons.mp hw with rfl | hw
          · exact Nat.le_refl _
          · exact hle w hw
        · intro w hw _
          rcases List.mem_cons.mp hw with rfl | hw
          · exact Nat.le_refl _
          · exact Nat.le_of_lt (hvlt w hw)
      · refine Or.inr ⟨List.mem_cons_of_mem _ hm, hc, Nat.lt_trans hgt hlt, ?_, ?_⟩
        · intro w hw
          rcases List.mem_cons.mp hw with rfl | hw
          · exact Nat.le_of_lt hlt
          · exact hle w hw
        · intro w hw hwc
          rcases List.mem_cons.mp hw with rfl | hw
          · omega
          · exact htie w hw hwc
    · rw [show modeStep l (b₀, c₀) v = (b₀, c₀) from if_neg hgt]
      rcases ih b₀ c₀ hmem' hpw' with ⟨heq, hle⟩ | ⟨hm, hc, hlt, hle, htie⟩
      · refine Or.inl ⟨heq, ?_⟩
        intro w hw
        rcases List.mem_cons.mp hw with rfl | hw
        · omega
        · exact hle w hw
      · refine Or.inr ⟨List.mem_cons_of_mem _ hm, hc, hlt, ?_, ?_⟩
        · intro w hw
          rcases List.mem_cons.mp hw with rfl | hw
          · omega
          · exact hle w hw
        · intro w hw hwc
          rcases List.mem_cons.mp hw with rfl | hw
          · omega
          · exact htie w hw hwc

theorem headD_mem {l : List String} (h : l ≠ []) : l.headD "" ∈ l := by
  cases l with
  | nil => exact absurd rfl h
  | cons a t => exact List.mem_cons_self _ _

/-- The mode is a present value of maximal count, and among maximal-count
values it is the one seen first. -/
theorem modeOf_spec (l : List String) (hne : l ≠ []) :
    modeOf l ∈ l ∧
    (∀ v ∈ l, l.count v ≤ l.count (modeOf l)) ∧
    (∀ v ∈ l, l.count v = l.count (modeOf l) →
      l.indexOf (modeOf l) ≤ l.indexOf v) := by
  have hds_mem : ∀ v ∈ firstSeenKeys l, v ∈ l :=
    fun v hv => (mem_firstSeenKeys l v).mp hv
  have hpw := pairwise_indexOf_firstSeenKeys l
  unfold modeOf
  rcases foldl_modeStep_spec l (firstSeenKeys l) (l.headD "") 0 hds_mem hpw with
    ⟨heq, hle⟩ | ⟨hm, hc, _, hle, htie⟩
  · exfalso
    have hh : l.headD "" ∈ l := headD_mem hne
    have h1 : l.count (l.headD "") ≤ 0 := hle _ ((mem_firstSeenKeys _ _).mpr hh)
    have h2 : 0 < l.count (l.headD "") := List.count_pos_iff.mpr hh
    omega
  · refine ⟨hds_mem _ hm, ?_, ?_⟩
    · intro v hv
      have := hle v ((mem_firstSeenKeys _ _).mpr hv)
      omega
    · intro v hv hvc
      exact htie v ((mem_firstSeenKeys _ _).mpr hv) (by omega)

/-- C7: for a feature column with strategy `mode` and at least one
non-missing value, the replacement is the string `modeOf present` — a
most frequent value (by raw string identity) of the column's non-missing
normalized values over the entire dataset, first-seen among ties; no
numeric coercion is involved. -/
theorem C7_mode_replacement (t : ParsedTable) (cfg : IngestCfg) (col : String)
    (hmode : effectiveStrategy cfg col = .simple .mode)
    (hne : presentValues (normRows t) col ≠ []) :
    replacementFor (normRows t) cfg col =
      some (.str (modeOf (presentValues (normRows t) col))) ∧
    modeOf (presentValues (normRows t) col) ∈ presentValues (normRows t) col ∧
    (∀ v ∈ presentValues (normRows t) col,
      (presentValues (normRows t) col).count v ≤
        (presentValues (normRows t) col).count
          (modeOf (presentValues (normRows t) col))) ∧
    (∀ v ∈ presentValues (normRows t) col,
      (presentValues (normRows t) col).count v =
        (presentValues (normRows t) col).count
          (modeOf (presentValues (normRows t) col)) →
      (presentValues (normRows t) col).indexOf
          (modeOf (presentValues (normRows t) col)) ≤
        (presentValues (normRows t) col).indexOf v) := by
  obtain ⟨hm, hmax, htie⟩ := modeOf_spec (presentValues (normRows t) col) hne
  refine ⟨?_, hm, hmax, htie⟩
  unfold replacementFor
  rw [hmode]
  have hie : (presentValues (normRows t) col).isEmpty = false := by
    simpa using hne
  simp [hie]

/-- C7 witness: on a column with values `["u","w","u"]` (after dropping the
missing fourth cell) and strategy `mode`, the replacement facts evaluated. -/
theorem C7_witness :
    replacementFor (normRows wTableC7) wCfgMode "a" =
      some (.str (modeOf (presentValues (normRows wTableC7) "a"))) ∧
    modeOf (presentValues (normRows wTableC7) "a") ∈
      presentValues (normRows wTableC7) "a" ∧
    (∀ v ∈ presentValues (normRows wTableC7) "a",
      (presentValues (normRows wTableC7) "a").count v ≤
        (presentValues (normRows wTableC7) "a").count
          (modeOf (presentValues (normRows wTableC7) "a"))) ∧
    (∀ v ∈ presentValues (normRows wTableC7) "a",
      (presentValues (normRows wTableC7) "a").count v =
        (presentValues (normRows wTableC7) "a").count
          (modeOf (presentValues (normRows wTableC7) "a")) →
      (presentValues (normRows wTableC7) "a").indexOf
          (modeOf (presentValues (normRows wTableC7) "a")) ≤
        (presentValues (normRows wTableC7) "a").indexOf v) :=
  C7_mode_replacement wTableC7 wCfgMode "a" (by decide) (by decide)

/-! ## Placeholders never parse as numbers -/

theorem ne_nil_of_isEmpty_eq_false {α : Type} {l : List α} (h : l.isEmpty = false) :
    l ≠ [] := by
  intro e
  subst e
  exact Bool.noConfusion h

theorem parseUnsigned_digit {cs : List Char} (h : (parseUnsigned cs).isSome = true) :
    ∃ c ∈ cs, isDigitCh c = true := by
  unfold parseUnsigned at h
  dsimp only at h
  split at h
  · split at h
    · simp at h
    · next hip =>
      obtain ⟨c, hc⟩ := List.exists_mem_of_ne_nil _
        (ne_nil_of_isEmpty_eq_false (Bool.not_eq_true _ |>.mp hip))
      exact ⟨c, (List.takeWhile_sublist _).subset hc, List.mem_takeWhile_imp hc⟩
  · next fr heq =>
    split at h
    · next hcond =>
      rw [Bool.and_eq_true] at hcond
      obtain ⟨hall, hnot⟩ := hcond
      rw [Bool.not_eq_true', Bool.and_eq_false_iff] at hnot
      rcases hnot with hip | hfr
      · obtain ⟨c, hc⟩ := List.exists_mem_of_ne_nil _
          (ne_nil_of_isEmpty_eq_false hip)
        exact ⟨c, (List.takeWhile_sublist _).subset hc, List.mem_takeWhile_imp hc⟩
      · obtain ⟨c, hc⟩ := List.exists_mem_of_ne_nil _
          (ne_nil_of_isEmpty_eq_false hfr)
        refine ⟨c, ?_, by simpa using List.all_eq_true.mp hall c hc⟩
        have hsplit : cs.takeWhile isDigitCh ++ cs.dropWhile isDigitCh = cs :=
          List.takeWhile_append_dropWhile _ _
        rw [heq] at hsplit
        rw [← hsplit]
        exact List.mem_append_right _ (List.mem_cons_of_mem _ hc)
    · simp at h
  · simp at h

theorem parseSigned_digit {cs : List Char} (h : (parseSigned cs).isSome = true) :
    ∃ c ∈ cs, isDigitCh c = true := by
  rw [parseSigned.eq_def] at h
  split at h
  · next r =>
    rw [Option.isSome_map'] at h
    obtain ⟨c, hc, hd⟩ := parseUnsigned_digit h
    exact ⟨c, List.mem_cons_of_mem _ hc, hd⟩
  · next r =>
    obtain ⟨c, hc, hd⟩ := parseUnsigned_digit h
    exact ⟨c, List.mem_cons_of_mem _ hc, hd⟩
  · exact parseUnsigned_digit h

theorem jsCharLower_of_digit {c : Char} (h : isDigitCh c = true) :
    jsCharLower c = c := by
  unfold isDigitCh at h
  rw [Bool.and_eq_true, decide_eq_true_eq, decide_eq_true_eq] at h
  unfold jsCharLower
  rw [if_neg (by omega)]

theorem placeholder_no_digit :
    ∀ p ∈ PLACEHOLDERS, ∀ c ∈ p.data, isDigitCh c = false := by decide

/-- A placeholder-classified cell never parses as a number: the
placeholder tokens contain no decimal digit, while every successful parse
consumes at least one. -/
theorem jsNum_none_of_placeholder {v : String} (h : isPlaceholderTok v = true) :
    jsNum v = none := by
  unfold isPlaceholderTok at h
  have hmem : jsLower (jsTrim v) ∈ PLACEHOLDERS := by
    simpa [List.contains_iff_exists_mem_beq] using h
  by_contra hne
  have hs : (jsNum v).isSome = true := Option.isSome_iff_ne_none.mpr hne
  unfold jsNum at hs
  dsimp only at hs
  split at hs
  · next hdata =>
    have : jsTrim v = "" := string_data_inj (by simpa using hdata)
    rw [this] at hmem
    exact absurd hmem (by decide)
  · obtain ⟨c, hc, hd⟩ := parseSigned_digit hs
    have hcl : jsCharLower c ∈ (jsLower (jsTrim v)).data := by
      unfold jsLower
      exact List.mem_map_of_mem _ hc
    rw [jsCharLower_of_digit hd] at hcl
    have := placeholder_no_digit _ hmem c hcl
    rw [hd] at this
    exact absurd this (by decide)

/-- C8: the profiler's `numericFraction` is the number of non-missing
values that parse as numbers over the number of non-missing values;
placeholder-classified cells never contribute to the numerator (they do
not parse) but are counted in the denominator; the field is absent
(`none`) exactly when the column has no non-missing value. -/
theorem C8_numericFraction_semantics (values : List String) :
    ((columnStats values).numericFraction =
      (if (values.filter (fun v => v != "")).isEmpty then none
       else some ((((values.filter (fun v => v != "")).filter
           (fun v => (jsNum v).isSome && !(isPlaceholderTok v))).length : ℚ) /
         ((values.filter (fun v => v != "")).length : ℚ)))) ∧
    (∀ v ∈ values, isPlaceholderTok v = true →
      v ∈ values.filter (fun v => v != "") ∧ (jsNum v).isSome = false) := by
  constructor
  · have hfeq : (values.filter (fun v => v != "")).filter
        (fun v => (jsNum v).isSome) =
      (values.filter (fun v => v != "")).filter
        (fun v => (jsNum v).isSome && !(isPlaceholderTok v)) := by
      apply List.filter_congr
      intro v _
      by_cases hp : isPlaceholderTok v = true
      · rw [jsNum_none_of_placeholder hp, hp]
        rfl
      · rw [Bool.not_eq_true] at hp
        rw [hp]
        simp
    show (if (values.filter (fun v => v != "")).isEmpty then none
       else some ((((values.filter (fun v => v != "")).filter
           (fun v => (jsNum v).isSome)).length : ℚ) /
         ((values.filter (fun v => v != "")).length : ℚ))) = _
    rw [hfeq]
  · intro v hv hp
    refine ⟨?_, ?_⟩
    · rw [List.mem_filter]
      refine ⟨hv, ?_⟩
      by_cases hve : v = ""
      · subst hve
        exact absurd hp (by decide)
      · simpa using hve
    · rw [jsNum_none_of_placeholder hp]
      rfl

/-- C8 witness: on the column `["1","na","x",""]`, the placeholder `"na"`
counts in the non-missing denominator and fails to parse. -/
theorem C8_witness :
    "na" ∈ (["1", "na", "x", ""] : List String).filter (fun v => v != "") ∧
      (jsNum "na").isSome = false :=
  (C8_numericFraction_semantics ["1", "na", "x", ""]).2 "na" (by decide) (by decide)

end Lyra
